import Mathlib

/-!
Verification of the babytrack sync server core (Go sources `server/db.go`,
`server/ws.go`, client `SyncClient`) against its natural-language
specification.  The Go functions are shallowly embedded as pure Lean
functions: the SQLite tables become lists, the per-family sequence counter
becomes an `Int` field, wall-clock time is passed explicitly, and fallible
store operations return `Option` (`none` models `sql.ErrNoRows` /
`NotFound`).
-/

namespace Babytrack

/-- A row of the `entries` table (`type Entry` in db.go).  `id` is the table's
global primary key; `seq` is the server-assigned per-family sequence number. -/
structure Entry where
  id : String
  familyID : String
  ts : Int
  type : String
  value : String
  deleted : Bool
  updatedAt : Int
  seq : Int
deriving Repr, DecidableEq

/-- The slice of a `families` row that the sync operations read or write.
The remaining columns (`name`, `notes`, `created_at`, `archived`) are never
touched by `UpsertEntry`, `DeleteEntry`, `GetEntriesSinceCursor`,
`GetConfig` or `SaveConfig`, so they are omitted from the embedding. -/
structure Family where
  id : String
  seq : Int
deriving Repr, DecidableEq

/-- The durable store: the `families`, `entries` and `configs` tables. -/
structure DbState where
  families : List Family
  entries : List Entry
  configs : List (String × String)
deriving Repr, DecidableEq

/-- Models `UPDATE families SET seq = seq + 1 WHERE id = ? RETURNING seq`
followed by `Scan(&newSeq)`: `none` when no row matches (`sql.ErrNoRows`). -/
def bumpFamilySeq (fams : List Family) (fid : String) : Option (List Family × Int) :=
  match fams.find? (fun f => f.id == fid) with
  | none => none
  | some f =>
    let newSeq := f.seq + 1
    some (fams.map (fun g => if g.id = fid then { g with seq := newSeq } else g), newSeq)

/-- `DB.UpsertEntry` (db.go): sets `updated_at` to the current time, bumps the
family seq, then `INSERT ... ON CONFLICT(id) DO UPDATE SET ts, type, value,
deleted, updated_at, seq` — note the conflict target is the global `id`
primary key, and `family_id` is not among the updated columns.  Returns the
new store state and the entry as mutated through the Go pointer. -/
def upsertEntry (db : DbState) (now : Int) (e : Entry) : Option (DbState × Entry) :=
  match bumpFamilySeq db.families e.familyID with
  | none => none
  | some (fams, newSeq) =>
    let e' := { e with updatedAt := now, seq := newSeq }
    let entries' :=
      if db.entries.any (fun r => r.id == e.id) then
        db.entries.map (fun r =>
          if r.id = e.id then
            { r with ts := e'.ts, type := e'.type, value := e'.value,
                     deleted := e'.deleted, updatedAt := e'.updatedAt, seq := e'.seq }
          else r)
      else db.entries ++ [e']
    some ({ db with families := fams, entries := entries' }, e')

/-- `DB.DeleteEntry` (db.go): bumps the family seq, then
`UPDATE entries SET deleted = 1, updated_at = ?, seq = ? WHERE id = ? AND
family_id = ?`.  The row count of the second UPDATE is never inspected, so an
unknown entry id still returns `some (db', newSeq)` with the family counter
bumped. -/
def deleteEntry (db : DbState) (now : Int) (fid id : String) : Option (DbState × Int) :=
  match bumpFamilySeq db.families fid with
  | none => none
  | some (fams, newSeq) =>
    let entries' := db.entries.map (fun r =>
      if r.id = id ∧ r.familyID = fid then
        { r with deleted := true, updatedAt := now, seq := newSeq }
      else r)
    some ({ db with families := fams, entries := entries' }, newSeq)

/-- Comparison used by `ORDER BY seq ASC`. -/
def seqle (a b : Entry) : Prop := a.seq ≤ b.seq

instance : DecidableRel seqle := fun a b => inferInstanceAs (Decidable (a.seq ≤ b.seq))

instance : IsTotal Entry seqle := ⟨fun a b => Int.le_total a.seq b.seq⟩

instance : IsTrans Entry seqle := ⟨fun _ _ _ hab hbc => le_trans hab hbc⟩

/-- The `WHERE family_id = ? AND seq > ?` filter of `GetEntriesSinceCursor`. -/
def entryMatch (fid : String) (cursor : Int) (e : Entry) : Bool :=
  e.familyID == fid && decide (cursor < e.seq)

/-- The `if limit <= 0 { limit = 500 }` default at the top of
`GetEntriesSinceCursor`. -/
def effLimit (limit : Int) : Int := if limit ≤ 0 then 500 else limit

/-- The rows produced by the query of `GetEntriesSinceCursor`:
`WHERE family_id = ? AND seq > ? ORDER BY seq ASC LIMIT ?` with
`LIMIT limit+1` (one extra row to detect `has_more`). -/
def scanFetch (db : DbState) (fid : String) (cursor limit : Int) : List Entry :=
  (List.insertionSort seqle (db.entries.filter (entryMatch fid cursor))).take
    (effLimit limit + 1).toNat

/-- `DB.GetEntriesSinceCursor` (db.go): a non-positive limit defaults to 500;
the query fetches `limit+1` rows with `seq > cursor` ordered by `seq`
ascending; `hasMore := len(entries) > limit` and the extra row is trimmed. -/
def getEntriesSinceCursor (db : DbState) (fid : String) (cursor limit : Int) :
    List Entry × Bool :=
  if effLimit limit < ((scanFetch db fid cursor limit).length : Int) then
    ((scanFetch db fid cursor limit).take (effLimit limit).toNat, true)
  else (scanFetch db fid cursor limit, false)

/-- Comparison used by `ORDER BY updated_at ASC` in `GetEntries`. -/
def updle (a b : Entry) : Prop := a.updatedAt ≤ b.updatedAt

instance : DecidableRel updle := fun a b => inferInstanceAs (Decidable (a.updatedAt ≤ b.updatedAt))

instance : IsTotal Entry updle := ⟨fun a b => Int.le_total a.updatedAt b.updatedAt⟩

instance : IsTrans Entry updle := ⟨fun _ _ _ hab hbc => le_trans hab hbc⟩

/-- `DB.GetEntries` (db.go): `WHERE family_id = ? AND updated_at > ?
ORDER BY updated_at ASC`. -/
def getEntries (db : DbState) (fid : String) (sinceUpdatedAt : Int) : List Entry :=
  List.insertionSort updle
    (db.entries.filter (fun e => e.familyID == fid && decide (sinceUpdatedAt < e.updatedAt)))

/-- The literal default config document in `DB.GetConfig` (db.go). -/
def defaultConfig : String :=
  "[\x7b\"category\": \"default\", \"stateful\": false, \"buttons\": []\x7d]"

/-- `DB.GetConfig` (db.go): `SELECT data FROM configs WHERE family_id = ?`;
on `sql.ErrNoRows` the fixed default config document is returned with no
error. -/
def getConfig (db : DbState) (fid : String) : String :=
  match db.configs.find? (fun p => p.1 == fid) with
  | none => defaultConfig
  | some p => p.2

/-! ### Sync hub and connection sessions (ws.go) -/

/-- Server-to-client frames, post-JSON-encoding shape.  `entryAck` is
`{"type":"entry_ack","id":..,"seq":..}`; `entryUpsert` is the broadcast
`{"type":"entry","action":..,"entry":..}`; `entryDelete` is the broadcast
`{"type":"entry","action":"delete","id":..,"seq":..}`. -/
inductive Frame where
  | initFrame (entries : List Entry) (config : String)
  | entryAck (id : String) (seq : Int)
  | entryUpsert (action : String) (e : Entry)
  | entryDelete (id : String) (seq : Int)
  | syncResponse (entries : List Entry) (cursor : Int) (hasMore : Bool)
  | configFrame (data : String)
  | pong
deriving Repr, DecidableEq

/-- The capacity of a client's `send` channel (`make(chan []byte, 256)`). -/
def sendCap : Nat := 256

/-- A `Client` in ws.go: the websocket connection is identified by `sid`
(pointer identity in Go), with its family, access-link label, and the
buffered outbound channel modelled as the list of queued frames. -/
structure Session where
  sid : Nat
  familyID : String
  label : String
  queue : List Frame
deriving Repr, DecidableEq

/-- The hub's `families` map flattened to the list of live sessions; the
family grouping is recovered from each session's `familyID`. -/
abbrev HubState := List Session

/-- One successful enqueue onto a session's outbound channel: (recipient
session id, frame).  Handlers return their enqueues in chronological order. -/
abbrev Event := Nat × Frame

/-- A plain `c.send <- msg` (blocks until space; always delivered). -/
def blockingSend (hub : HubState) (sid : Nat) (f : Frame) : HubState :=
  hub.map (fun s => if s.sid = sid then { s with queue := s.queue ++ [f] } else s)

/-- `Hub.Broadcast` (ws.go): sends `msg` to every client of the family except
`exclude`; the `select`/`default` try-send drops the frame for a recipient
whose buffer is full.  Also returns the successful enqueues in order. -/
def broadcast (hub : HubState) (fid : String) (f : Frame) (excl : Nat) :
    HubState × List Event :=
  match hub with
  | [] => ([], [])
  | s :: rest =>
    let tailRes := broadcast rest fid f excl
    if s.familyID = fid ∧ s.sid ≠ excl then
      if s.queue.length < sendCap then
        ({ s with queue := s.queue ++ [f] } :: tailRes.1, (s.sid, f) :: tailRes.2)
      else (s :: tailRes.1, tailRes.2)
    else (s :: tailRes.1, tailRes.2)

/-- A decoded client frame (`WSMessage` in ws.go).  JSON decoding is outside
the embedding: `entry = none` models an absent or undecodable `entry` field,
`entries = []` an absent bulk batch. -/
structure WSMessage where
  type : String
  action : String
  entry : Option Entry
  entries : List Entry
  id : String
  cursor : Int
  limit : Int
deriving Repr, DecidableEq

/-- Combined server state acted on by the handlers. -/
structure ServerState where
  db : DbState
  hub : HubState
deriving Repr, DecidableEq

/-- `Server.handleEntryMessage` (ws.go).  For `add`/`update`: force the
entry's family id to the session's, upsert (on error: log and drop, no
events), then ack to the submitter, then broadcast to the family excluding
the submitter.  For `delete`: `DeleteEntry`, ack, broadcast an
`action=delete` frame.  Returns the new state and the enqueues in order. -/
def handleEntryMessage (st : ServerState) (now : Int) (c : Session) (msg : WSMessage) :
    ServerState × List Event :=
  if msg.action = "add" ∨ msg.action = "update" then
    match msg.entry with
    | none => (st, [])
    | some entry0 =>
      let entry1 := { entry0 with familyID := c.familyID }
      match upsertEntry st.db now entry1 with
      | none => (st, [])
      | some (db', e') =>
        let ackF := Frame.entryAck e'.id e'.seq
        let hub1 := blockingSend st.hub c.sid ackF
        let bF := Frame.entryUpsert msg.action e'
        let res := broadcast hub1 c.familyID bF c.sid
        ({ db := db', hub := res.1 }, (c.sid, ackF) :: res.2)
  else if msg.action = "delete" then
    match deleteEntry st.db now c.familyID msg.id with
    | none => (st, [])
    | some (db', seq) =>
      let ackF := Frame.entryAck msg.id seq
      let hub1 := blockingSend st.hub c.sid ackF
      let bF := Frame.entryDelete msg.id seq
      let res := broadcast hub1 c.familyID bF c.sid
      ({ db := db', hub := res.1 }, (c.sid, ackF) :: res.2)
  else (st, [])

/-- The bulk-push loop at the top of `Server.handleSyncMessage` (ws.go): each
client-sent entry has its family id forced to the session's, is upserted
(errors are logged and skipped), acked to the submitter, and broadcast — as a
`delete` frame when `e.Deleted`, otherwise as an `add` frame. -/
def processBulk (st : ServerState) (now : Int) (c : Session) :
    List Entry → ServerState × List Event
  | [] => (st, [])
  | e :: rest =>
    let e1 := { e with familyID := c.familyID }
    match upsertEntry st.db now e1 with
    | none => processBulk st now c rest
    | some (db', e') =>
      let ackF := Frame.entryAck e'.id e'.seq
      let hub1 := blockingSend st.hub c.sid ackF
      let bF := if e'.deleted then Frame.entryDelete e'.id e'.seq
                else Frame.entryUpsert "add" e'
      let res := broadcast hub1 c.familyID bF c.sid
      let tailRes := processBulk { db := db', hub := res.1 } now c rest
      (tailRes.1, ((c.sid, ackF) :: res.2) ++ tailRes.2)

/-- `Server.handleSyncMessage` (ws.go): process any bulk-pushed entries, then
scan with `GetEntriesSinceCursor` and reply with a `sync_response` whose
cursor is the last returned entry's seq, or the request cursor when none. -/
def handleSyncMessage (st : ServerState) (now : Int) (c : Session) (msg : WSMessage) :
    ServerState × List Event :=
  let bulkRes := processBulk st now c msg.entries
  let scan := getEntriesSinceCursor bulkRes.1.db c.familyID msg.cursor msg.limit
  let newCursor :=
    match scan.1.getLast? with
    | none => msg.cursor
    | some e => e.seq
  let respF := Frame.syncResponse scan.1 newCursor scan.2
  let hub' := blockingSend bulkRes.1.hub c.sid respF
  ({ db := bulkRes.1.db, hub := hub' }, bulkRes.2 ++ [(c.sid, respF)])

/-- `Server.sendInit` (ws.go): one `init` frame with `GetEntries(family, 0)`
and `GetConfig(family)`, enqueued on the new session's channel. -/
def sendInit (st : ServerState) (c : Session) : ServerState × List Event :=
  let f := Frame.initFrame (getEntries st.db c.familyID 0) (getConfig st.db c.familyID)
  ({ st with hub := blockingSend st.hub c.sid f }, [(c.sid, f)])

/-! ### Client reliability core (`SyncClient` in the browser client) -/

/-- A `pendingEntries` value: `{msg, addedAt}`. -/
structure PendingItem where
  msg : WSMessage
  addedAt : Int
deriving Repr, DecidableEq

/-- The part of `SyncClient` state that `handleEntryAck` touches.  The
insertion-ordered JS `Map` becomes an association list with unique keys;
`storedCursor` and `storedQueue` model the `sync-cursor` and
`sync-pending-queue` keys in `localStorage`. -/
structure ClientState where
  pendingEntries : List (String × PendingItem)
  cursor : Int
  storedCursor : Int
  storedQueue : List (String × PendingItem)
deriving Repr, DecidableEq

/-- `Map.delete(id)` on an association list with unique keys. -/
def eraseId (l : List (String × PendingItem)) (id : String) :
    List (String × PendingItem) :=
  l.filter (fun p => p.1 != id)

/-- `SyncClient.handleEntryAck(msg)`: if the id is pending, delete it and
persist the queue; then, if `msg.seq > this.cursor`, advance the cursor and
persist it. -/
def handleEntryAck (cs : ClientState) (id : String) (seq : Int) : ClientState :=
  let cs1 :=
    if cs.pendingEntries.any (fun p => p.1 == id) then
      let p' := eraseId cs.pendingEntries id
      { cs with pendingEntries := p', storedQueue := p' }
    else cs
  if cs1.cursor < seq then { cs1 with cursor := seq, storedCursor := seq }
  else cs1

/-! ### Single-family mutation traces

The protocol handlers only ever call `UpsertEntry` and `DeleteEntry` with the
session's family id, so a family's history is a list of these two operations
applied to it.  (`applyOp` keeps the state unchanged when the store call
fails, matching the handlers' log-and-drop policy.) -/

/-- One mutation of a family, as issued by the protocol handlers: an
upsert of a client-supplied entry (family id forced), or a delete by id. -/
inductive MutOp where
  | upsert (now : Int) (e : Entry)
  | del (now : Int) (id : String)
deriving Repr, DecidableEq

/-- Apply one mutation to the store on behalf of family `fid`. -/
def applyOp (fid : String) (db : DbState) : MutOp → DbState
  | .upsert now e =>
    match upsertEntry db now { e with familyID := fid } with
    | some (db', _) => db'
    | none => db
  | .del now id =>
    match deleteEntry db now fid id with
    | some (db', _) => db'
    | none => db

/-- Apply a list of mutations left to right. -/
def applyOps (fid : String) (db : DbState) (ops : List MutOp) : DbState :=
  ops.foldl (applyOp fid) db

/-- A freshly created family: counter at 0, no entries, no config. -/
def dbInit (fid : String) : DbState :=
  { families := [{ id := fid, seq := 0 }], entries := [], configs := [] }

/-- The family's current sequence counter (0 when the family is unknown,
matching the `DEFAULT 0` column). -/
def familySeqD (db : DbState) (fid : String) : Int :=
  match db.families.find? (fun f => f.id == fid) with
  | none => 0
  | some f => f.seq

/-! ### Shared helper lemmas -/

theorem map_eq_self_of {α : Type} (l : List α) (f : α → α)
    (h : ∀ a ∈ l, f a = a) : l.map f = l := by
  induction l with
  | nil => rfl
  | cons x xs ih =>
    simp only [List.map_cons, h x (List.mem_cons_self x xs), List.cons.injEq, true_and]
    exact ih (fun a ha => h a (List.mem_cons_of_mem x ha))

theorem mem_of_getLast?_eq {α : Type} {l : List α} {a : α}
    (h : l.getLast? = some a) : a ∈ l := by
  obtain ⟨hne, rfl⟩ := List.mem_getLast?_eq_getLast (Option.mem_def.mpr h)
  exact List.getLast_mem hne

/-- In a list sorted by `seqle`, the last element has the greatest `seq`. -/
theorem sorted_le_getLast {l : List Entry} (hs : l.Sorted seqle) {a : Entry}
    (ha : l.getLast? = some a) : ∀ e ∈ l, e.seq ≤ a.seq := by
  induction l with
  | nil => cases ha
  | cons x xs ih =>
    cases xs with
    | nil =>
      intro e he
      simp only [List.getLast?_singleton, Option.some.injEq] at ha
      simp only [List.mem_singleton] at he
      subst ha he
      exact le_refl _
    | cons y ys =>
      rw [List.getLast?_cons_cons] at ha
      have hrel := (List.pairwise_cons.mp hs).1
      have hs' := (List.pairwise_cons.mp hs).2
      intro e he
      rcases List.mem_cons.mp he with rfl | hey
      · exact le_trans (hrel a (mem_of_getLast?_eq ha)) (le_refl _)
      · exact ih hs' ha e hey

/-- The entry list returned by `getEntriesSinceCursor` is sorted by `seq`. -/
theorem scan_sorted (db : DbState) (fid : String) (cursor limit : Int) :
    ((getEntriesSinceCursor db fid cursor limit).1).Sorted seqle := by
  have hbase : (List.insertionSort seqle (db.entries.filter (entryMatch fid cursor))).Sorted
      seqle := List.sorted_insertionSort seqle _
  have hfetch : (scanFetch db fid cursor limit).Sorted seqle :=
    List.Pairwise.sublist (List.take_sublist _ _) hbase
  unfold getEntriesSinceCursor
  split
  · exact List.Pairwise.sublist (List.take_sublist _ _) hfetch
  · exact hfetch

/-- Every entry returned by `getEntriesSinceCursor` belongs to the family and
lies beyond the cursor (and comes from the store). -/
theorem scan_mem (db : DbState) (fid : String) (cursor limit : Int) :
    ∀ e ∈ (getEntriesSinceCursor db fid cursor limit).1,
      e ∈ db.entries ∧ e.familyID = fid ∧ cursor < e.seq := by
  intro e he
  have hfetch : e ∈ scanFetch db fid cursor limit := by
    unfold getEntriesSinceCursor at he
    split at he
    · exact List.mem_of_mem_take he
    · exact he
  have hsort : e ∈ List.insertionSort seqle (db.entries.filter (entryMatch fid cursor)) :=
    List.mem_of_mem_take hfetch
  have hfil : e ∈ db.entries.filter (entryMatch fid cursor) :=
    (List.perm_insertionSort seqle _).mem_iff.mp hsort
  have := List.mem_filter.mp hfil
  refine ⟨this.1, ?_, ?_⟩
  · have h1 := this.2
    unfold entryMatch at h1
    simp only [Bool.and_eq_true, beq_iff_eq, decide_eq_true_eq] at h1
    exact h1.1
  · have h1 := this.2
    unfold entryMatch at h1
    simp only [Bool.and_eq_true, beq_iff_eq, decide_eq_true_eq] at h1
    exact h1.2

/-- Every successful enqueue of `Hub.Broadcast` goes to a session other than
the excluded one and carries the broadcast frame. -/
theorem broadcast_event_spec (hub : HubState) (fid : String) (f : Frame) (excl : Nat) :
    ∀ ev ∈ (broadcast hub fid f excl).2, ev.1 ≠ excl ∧ ev.2 = f := by
  induction hub with
  | nil => intro ev h; cases h
  | cons s rest ih =>
    intro ev hev
    unfold broadcast at hev
    by_cases h1 : s.familyID = fid ∧ s.sid ≠ excl
    · rw [if_pos h1] at hev
      by_cases h2 : s.queue.length < sendCap
      · rw [if_pos h2] at hev
        rcases List.mem_cons.mp hev with rfl | hmem
        · exact ⟨h1.2, rfl⟩
        · exact ih ev hmem
      · rw [if_neg h2] at hev
        exact ih ev hev
    · rw [if_neg h1] at hev
      exact ih ev hev

/-- `Hub.Broadcast` enqueues the frame for every same-family session other
than the excluded one whose outbound buffer has room. -/
theorem broadcast_event_mem (hub : HubState) (fid : String) (f : Frame) (excl : Nat)
    (s : Session) (hs : s ∈ hub) (hfam : s.familyID = fid) (hne : s.sid ≠ excl)
    (hroom : s.queue.length < sendCap) : (s.sid, f) ∈ (broadcast hub fid f excl).2 := by
  induction hub with
  | nil => cases hs
  | cons t rest ih =>
    unfold broadcast
    rcases List.mem_cons.mp hs with rfl | hmem
    · rw [if_pos ⟨hfam, hne⟩, if_pos hroom]
      exact List.mem_cons_self _ _
    · by_cases h1 : t.familyID = fid ∧ t.sid ≠ excl
      · rw [if_pos h1]
        by_cases h2 : t.queue.length < sendCap
        · rw [if_pos h2]
          exact List.mem_cons_of_mem _ (ih hmem)
        · rw [if_neg h2]
          exact ih hmem
      · rw [if_neg h1]
        exact ih hmem

/-- A blocking send to one session leaves every other session untouched. -/
theorem blockingSend_mem (hub : HubState) (sid : Nat) (f : Frame) (s : Session)
    (hs : s ∈ hub) (hne : s.sid ≠ sid) : s ∈ blockingSend hub sid f := by
  unfold blockingSend
  have : (if s.sid = sid then { s with queue := s.queue ++ [f] } else s) = s := if_neg hne
  exact this ▸ List.mem_map_of_mem _ hs

/-! ### C10 — default config for a family with no config row -/

/-- C10: for a family with no saved config row, `GetConfig` succeeds with the
fixed default config document, which is non-empty, so the `init` frame of a
fresh family carries that non-empty config. -/
theorem getConfig_default (st : ServerState) (c : Session)
    (h : st.db.configs.find? (fun p => p.1 == c.familyID) = none) :
    getConfig st.db c.familyID = defaultConfig ∧ defaultConfig ≠ "" ∧
      (sendInit st c).2 = [(c.sid, Frame.initFrame (getEntries st.db c.familyID 0) defaultConfig)] := by
  have hg : getConfig st.db c.familyID = defaultConfig := by
    unfold getConfig
    rw [h]
  refine ⟨hg, by decide, ?_⟩
  unfold sendInit
  rw [hg]

/-- Witness for C10 at a store with no config rows. -/
theorem getConfig_default_witness :
    getConfig (dbInit "f") "f" = defaultConfig ∧ defaultConfig ≠ "" ∧
      (sendInit { db := dbInit "f", hub := [] } { sid := 0, familyID := "f", label := "", queue := [] }).2 =
        [(0, Frame.initFrame (getEntries (dbInit "f") "f" 0) defaultConfig)] :=
  getConfig_default { db := dbInit "f", hub := [] }
    { sid := 0, familyID := "f", label := "", queue := [] } rfl

/-! ### C9 — client entry_ack handling -/

theorem eraseId_eq_self {l : List (String × PendingItem)} {id : String}
    (h : l.any (fun p => p.1 == id) = false) : eraseId l id = l := by
  unfold eraseId
  apply List.filter_eq_self.mpr
  intro a ha
  have h2 : ¬(a.1 == id) = true := by
    intro hc
    exact (List.any_eq_false.mp h a ha) hc
  simp only [bne, Bool.not_eq_true] at *
  simp [Bool.not_eq_true' .. ▸ h2]

/-- C9: `handleEntryAck(id, seq)` removes `id` from the pending queue,
advances the cursor to `seq` exactly when `seq > cursor`, persists both
changes to durable storage, and is a no-op on the queue when the id is not
pending. -/
theorem handleEntryAck_spec (cs : ClientState) (id : String) (seq : Int) :
    (handleEntryAck cs id seq).pendingEntries = eraseId cs.pendingEntries id ∧
    (handleEntryAck cs id seq).cursor = (if cs.cursor < seq then seq else cs.cursor) ∧
    (handleEntryAck cs id seq).storedCursor =
      (if cs.cursor < seq then seq else cs.storedCursor) ∧
    (cs.pendingEntries.any (fun p => p.1 == id) = true →
      (handleEntryAck cs id seq).storedQueue = (handleEntryAck cs id seq).pendingEntries) ∧
    (cs.pendingEntries.any (fun p => p.1 == id) = false →
      (handleEntryAck cs id seq).pendingEntries = cs.pendingEntries ∧
      (handleEntryAck cs id seq).storedQueue = cs.storedQueue) := by
  by_cases hp : cs.pendingEntries.any (fun p => p.1 == id) = true
  · by_cases hc : cs.cursor < seq
    · simp [handleEntryAck, hp, hc]
    · simp [handleEntryAck, hp, hc]
  · have hp' : cs.pendingEntries.any (fun p => p.1 == id) = false :=
      Bool.not_eq_true _ ▸ hp
    have her := eraseId_eq_self hp'
    by_cases hc : cs.cursor < seq
    · simp [handleEntryAck, hp', hc, her]
    · simp [handleEntryAck, hp', hc, her]

/-- Witness for C9: an ack for a pending id with a larger seq. -/
theorem handleEntryAck_spec_witness :
    (handleEntryAck
        { pendingEntries :=
            [("a", { msg := { type := "entry", action := "add", entry := none,
                              entries := [], id := "a", cursor := 0, limit := 0 },
                     addedAt := 0 })],
          cursor := 0, storedCursor := 0,
          storedQueue :=
            [("a", { msg := { type := "entry", action := "add", entry := none,
                              entries := [], id := "a", cursor := 0, limit := 0 },
                     addedAt := 0 })] } "a" 4).pendingEntries = [] ∧
    ([("a", ({ msg := { type := "entry", action := "add", entry := none,
                        entries := [], id := "a", cursor := 0, limit := 0 },
               addedAt := 0 } : PendingItem))].any (fun p => p.1 == "a") = true) := by
  refine ⟨?_, by decide⟩
  have h := (handleEntryAck_spec
    { pendingEntries :=
        [("a", { msg := { type := "entry", action := "add", entry := none,
                          entries := [], id := "a", cursor := 0, limit := 0 },
                 addedAt := 0 })],
      cursor := 0, storedCursor := 0,
      storedQueue :=
        [("a", { msg := { type := "entry", action := "add", entry := none,
                          entries := [], id := "a", cursor := 0, limit := 0 },
                 addedAt := 0 })] } "a" 4).1
  rw [h]
  decide

/-! ### C1 — delete of an unknown entry id -/

/-- C1 counterexample: deleting an unknown entry id from a fresh family does
not return `NotFound`: it succeeds, returns seq 1, and bumps the family's
counter from 0 to 1 (no row is touched — the store has none). -/
theorem deleteEntry_unknown_counterexample :
    deleteEntry (dbInit "f") 5 "f" "x" =
      some ({ families := [{ id := "f", seq := 1 }], entries := [], configs := [] }, 1) ∧
    familySeqD (dbInit "f") "f" = 0 := by
  exact ⟨by decide, by decide⟩

/-- C1 amended: `DeleteEntry` with an entry id unknown to the family still
bumps the family sequence by one and returns the new seq with no error; no
entry row is created or modified. -/
theorem deleteEntry_unknown_id (db : DbState) (now : Int) (fid id : String) (s : Int)
    (hf : db.families.find? (fun f => f.id == fid) = some { id := fid, seq := s })
    (hnone : ∀ e ∈ db.entries, ¬(e.id = id ∧ e.familyID = fid)) :
    deleteEntry db now fid id =
      some ({ families :=
                db.families.map (fun g => if g.id = fid then { g with seq := s + 1 } else g),
              entries := db.entries, configs := db.configs }, s + 1) := by
  have hent : db.entries.map (fun r =>
      if r.id = id ∧ r.familyID = fid then
        { r with deleted := true, updatedAt := now, seq := s + 1 }
      else r) = db.entries :=
    map_eq_self_of _ _ (fun r hr => if_neg (hnone r hr))
  unfold deleteEntry bumpFamilySeq
  rw [hf]
  simp only [hent]

/-- Witness for C1's amended theorem at a concrete store. -/
theorem deleteEntry_unknown_id_witness :
    deleteEntry (dbInit "f") 5 "f" "x" =
      some ({ families :=
                (dbInit "f").families.map
                  (fun g => if g.id = "f" then { g with seq := 0 + 1 } else g),
              entries := (dbInit "f").entries, configs := (dbInit "f").configs }, 0 + 1) :=
  deleteEntry_unknown_id (dbInit "f") 5 "f" "x" 0 (by decide) (by intro e he; cases he)

/-! ### C6 — limit defaulting and (absence of) clamping -/

/-- An entry with seq `i + 1`, used to build stores of any size. -/
def mkEntry (i : Nat) : Entry :=
  { id := toString i, familyID := "f", ts := 0, type := "t", value := "",
    deleted := false, updatedAt := 0, seq := (i : Int) + 1 }

/-- A family with `n` entries carrying seqs `1..n`. -/
def mkDb (n : Nat) : DbState :=
  { families := [{ id := "f", seq := (n : Int) }],
    entries := (List.range n).map mkEntry, configs := [] }

/-- C6 counterexample: there is no bound `M` on the number of entries a
single `GetEntriesSinceCursor` call returns — the client-supplied limit is
used as-is with no upper clamp. -/
theorem scan_no_clamp_counterexample :
    ¬ ∃ M : Nat, ∀ (db : DbState) (fid : String) (cursor limit : Int),
      ((getEntriesSinceCursor db fid cursor limit).1).length ≤ M := by
  rintro ⟨M, hM⟩
  have heff : effLimit ((M : Int) + 1) = (M : Int) + 1 := if_neg (by omega)
  have hfil : (mkDb (M + 1)).entries.filter (entryMatch "f" 0) = (mkDb (M + 1)).entries := by
    apply List.filter_eq_self.mpr
    intro e he
    simp only [mkDb, List.mem_map, List.mem_range] at he
    obtain ⟨i, _, rfl⟩ := he
    unfold entryMatch mkEntry
    simp only [Bool.and_eq_true, beq_iff_eq, decide_eq_true_eq]
    exact ⟨trivial, by omega⟩
  have hsortlen : (List.insertionSort seqle ((mkDb (M + 1)).entries)).length = M + 1 := by
    rw [(List.perm_insertionSort seqle _).length_eq]
    simp [mkDb]
  have hfetch : scanFetch (mkDb (M + 1)) "f" 0 ((M : Int) + 1) =
      List.insertionSort seqle ((mkDb (M + 1)).entries) := by
    unfold scanFetch
    rw [hfil]
    apply List.take_of_length_le
    rw [hsortlen, heff]
    omega
  have hlen : ((getEntriesSinceCursor (mkDb (M + 1)) "f" 0 ((M : Int) + 1)).1).length = M + 1 := by
    unfold getEntriesSinceCursor
    rw [hfetch, hsortlen, heff]
    rw [if_neg (by push_cast; omega)]
    exact hsortlen
  have := hM (mkDb (M + 1)) "f" 0 ((M : Int) + 1)
  omega

/-- The returned batch never exceeds the effective limit. -/
theorem scan_len_le (db : DbState) (fid : String) (cursor limit : Int) :
    ((getEntriesSinceCursor db fid cursor limit).1).length ≤ (effLimit limit).toNat := by
  unfold getEntriesSinceCursor
  split
  · show ((scanFetch db fid cursor limit).take (effLimit limit).toNat).length ≤
      (effLimit limit).toNat
    rw [List.length_take]
    exact Nat.min_le_left _ _
  · rename_i h
    show (scanFetch db fid cursor limit).length ≤ (effLimit limit).toNat
    omega

/-- C6 amended: a missing or non-positive limit defaults to 500, and the
returned batch never exceeds the effective limit — but a positive
client-supplied limit is used as-is, with no upper clamp. -/
theorem scan_limit_default (db : DbState) (fid : String) (cursor limit : Int) :
    (limit ≤ 0 →
      getEntriesSinceCursor db fid cursor limit = getEntriesSinceCursor db fid cursor 500) ∧
    ((getEntriesSinceCursor db fid cursor limit).1).length ≤ (effLimit limit).toNat := by
  constructor
  · intro h
    have heq : effLimit limit = effLimit 500 := by
      unfold effLimit
      rw [if_pos h]
      norm_num
    unfold getEntriesSinceCursor scanFetch
    rw [heq]
  · exact scan_len_le db fid cursor limit

/-- Witness for C6's amended theorem: limit 0 defaults to 500. -/
theorem scan_limit_default_witness :
    (getEntriesSinceCursor (dbInit "f") "f" 0 0 = getEntriesSinceCursor (dbInit "f") "f" 0 500) ∧
    ((getEntriesSinceCursor (dbInit "f") "f" 0 0).1).length ≤ (effLimit 0).toNat :=
  ⟨(scan_limit_default (dbInit "f") "f" 0 0).1 (by decide),
   (scan_limit_default (dbInit "f") "f" 0 0).2⟩

/-! ### C8 — the server rewrites family_id from the session -/

theorem processBulk_familyID_irrel (now : Int) (c : Session) (fid1 fid2 : String)
    (l : List Entry) : ∀ st : ServerState,
    processBulk st now c (l.map (fun e => { e with familyID := fid1 })) =
    processBulk st now c (l.map (fun e => { e with familyID := fid2 })) := by
  induction l with
  | nil => intro _; rfl
  | cons e rest ih =>
    intro st
    simp only [List.map_cons, processBulk]
    have hforced : ({ { e with familyID := fid1 } with familyID := c.familyID } : Entry) =
        { { e with familyID := fid2 } with familyID := c.familyID } := rfl
    rw [hforced]
    cases hu : upsertEntry st.db now { { e with familyID := fid2 } with familyID := c.familyID } with
    | none => exact ih st
    | some p =>
      obtain ⟨db', e'⟩ := p
      simp only
      rw [ih]

theorem handleSyncMessage_congr (st : ServerState) (now : Int) (c : Session)
    (m1 m2 : WSMessage) (hcur : m1.cursor = m2.cursor) (hlim : m1.limit = m2.limit)
    (hpb : processBulk st now c m1.entries = processBulk st now c m2.entries) :
    handleSyncMessage st now c m1 = handleSyncMessage st now c m2 := by
  unfold handleSyncMessage
  rw [hpb, hcur, hlim]

/-- C8: the server stores entries under the session's family id regardless of
the client-supplied `family_id`: an entry frame and a bulk push differing
only in the submitted entries' family ids are handled identically. -/
theorem family_id_rewritten (st : ServerState) (now : Int) (c : Session)
    (typ act eid : String) (cursor limit : Int) (oe : Option Entry) (l : List Entry)
    (fid1 fid2 : String) :
    handleEntryMessage st now c
        { type := typ, action := act, entry := oe.map (fun e => { e with familyID := fid1 }),
          entries := l, id := eid, cursor := cursor, limit := limit } =
      handleEntryMessage st now c
        { type := typ, action := act, entry := oe.map (fun e => { e with familyID := fid2 }),
          entries := l, id := eid, cursor := cursor, limit := limit } ∧
    handleSyncMessage st now c
        { type := typ, action := act, entry := oe,
          entries := l.map (fun e => { e with familyID := fid1 }),
          id := eid, cursor := cursor, limit := limit } =
      handleSyncMessage st now c
        { type := typ, action := act, entry := oe,
          entries := l.map (fun e => { e with familyID := fid2 }),
          id := eid, cursor := cursor, limit := limit } := by
  constructor
  · cases oe with
    | none => rfl
    | some e0 => rfl
  · exact handleSyncMessage_congr st now c _ _ rfl rfl
      (processBulk_familyID_irrel now c fid1 fid2 l st)

/-! ### C2 — per-family seq dominates every entry seq -/

/-- The reachable-state invariant of a single family `fid` built from scratch:
the store holds exactly that family at counter `s`, every entry's seq is
bounded by `s`, and every entry belongs to the family. -/
def famOK (fid : String) (db : DbState) (s : Int) : Prop :=
  db.families = [{ id := fid, seq := s }] ∧
  (∀ e ∈ db.entries, e.seq ≤ s) ∧
  (∀ e ∈ db.entries, e.familyID = fid)

theorem bump_singleton (fid : String) (s : Int) :
    bumpFamilySeq [{ id := fid, seq := s }] fid = some ([{ id := fid, seq := s + 1 }], s + 1) := by
  unfold bumpFamilySeq
  simp [List.find?_cons]

theorem upsertEntry_eq (db : DbState) (now : Int) (e1 : Entry) (fams' : List Family) (ns : Int)
    (hbump : bumpFamilySeq db.families e1.familyID = some (fams', ns)) :
    upsertEntry db now e1 =
      some ({ families := fams',
              entries :=
                if db.entries.any (fun r => r.id == e1.id) then
                  db.entries.map (fun r =>
                    if r.id = e1.id then
                      { r with ts := e1.ts, type := e1.type, value := e1.value,
                               deleted := e1.deleted, updatedAt := now, seq := ns }
                    else r)
                else db.entries ++ [{ e1 with updatedAt := now, seq := ns }],
              configs := db.configs },
            { e1 with updatedAt := now, seq := ns }) := by
  unfold upsertEntry
  rw [hbump]

theorem deleteEntry_eq (db : DbState) (now : Int) (fid id : String) (fams' : List Family)
    (ns : Int) (hbump : bumpFamilySeq db.families fid = some (fams', ns)) :
    deleteEntry db now fid id =
      some ({ families := fams',
              entries := db.entries.map (fun r =>
                if r.id = id ∧ r.familyID = fid then
                  { r with deleted := true, updatedAt := now, seq := ns }
                else r),
              configs := db.configs }, ns) := by
  unfold deleteEntry
  rw [hbump]

theorem applyOp_famOK (fid : String) (db : DbState) (s : Int) (op : MutOp)
    (h : famOK fid db s) : famOK fid (applyOp fid db op) (s + 1) := by
  obtain ⟨hf, hb, hfam⟩ := h
  cases op with
  | upsert now e =>
    have hbump : bumpFamilySeq db.families ({ e with familyID := fid } : Entry).familyID =
        some ([{ id := fid, seq := s + 1 }], s + 1) := by
      show bumpFamilySeq db.families fid = some ([{ id := fid, seq := s + 1 }], s + 1)
      rw [hf]
      exact bump_singleton fid s
    have hup := upsertEntry_eq db now { e with familyID := fid } _ _ hbump
    simp only [applyOp, hup]
    refine ⟨rfl, ?_, ?_⟩
    · intro x hx
      split at hx
      · obtain ⟨r, hr, rfl⟩ := List.mem_map.mp hx
        split
        · exact le_refl _
        · exact le_trans (hb r hr) (by omega)
      · rcases List.mem_append.mp hx with hold | hnew
        · exact le_trans (hb x hold) (by omega)
        · rw [List.mem_singleton.mp hnew]
    · intro x hx
      split at hx
      · obtain ⟨r, hr, rfl⟩ := List.mem_map.mp hx
        split
        · exact hfam r hr
        · exact hfam r hr
      · rcases List.mem_append.mp hx with hold | hnew
        · exact hfam x hold
        · rw [List.mem_singleton.mp hnew]
  | del now id =>
    have hbump : bumpFamilySeq db.families fid = some ([{ id := fid, seq := s + 1 }], s + 1) := by
      rw [hf]
      exact bump_singleton fid s
    have hdel := deleteEntry_eq db now fid id _ _ hbump
    simp only [applyOp, hdel]
    refine ⟨rfl, ?_, ?_⟩
    · intro x hx
      obtain ⟨r, hr, rfl⟩ := List.mem_map.mp hx
      split
      · exact le_refl _
      · exact le_trans (hb r hr) (by omega)
    · intro x hx
      obtain ⟨r, hr, rfl⟩ := List.mem_map.mp hx
      split
      · exact hfam r hr
      · exact hfam r hr

theorem famOK_dbInit (fid : String) : famOK fid (dbInit fid) 0 :=
  ⟨rfl, fun _ h => absurd h (List.not_mem_nil _), fun _ h => absurd h (List.not_mem_nil _)⟩

theorem applyOps_famOK (fid : String) (ops : List MutOp) :
    ∀ (db : DbState) (s : Int), famOK fid db s →
      famOK fid (applyOps fid db ops) (s + ops.length) := by
  induction ops with
  | nil =>
    intro db s h
    simpa [applyOps] using h
  | cons op rest ih =>
    intro db s h
    have h1 := applyOp_famOK fid db s op h
    have h2 := ih (applyOp fid db op) (s + 1) h1
    have : applyOps fid db (op :: rest) = applyOps fid (applyOp fid db op) rest := rfl
    rw [this]
    have harith : s + 1 + (rest.length : Int) = s + ((op :: rest).length : Int) := by
      simp only [List.length_cons]
      push_cast
      omega
    rw [← harith]
    exact h2

theorem famSeqD_of_famOK {fid : String} {db : DbState} {s : Int} (h : famOK fid db s) :
    familySeqD db fid = s := by
  unfold familySeqD
  rw [h.1]
  simp [List.find?_cons]

theorem upsert_row_exists (fid : String) (db : DbState) (s : Int)
    (h : famOK fid db s) (now : Int) (e0 : Entry) :
    ∃ r ∈ (applyOp fid db (MutOp.upsert now e0)).entries, r.id = e0.id ∧ r.seq = s + 1 := by
  obtain ⟨hf, _, _⟩ := h
  have hbump : bumpFamilySeq db.families ({ e0 with familyID := fid } : Entry).familyID =
      some ([{ id := fid, seq := s + 1 }], s + 1) := by
    show bumpFamilySeq db.families fid = some ([{ id := fid, seq := s + 1 }], s + 1)
    rw [hf]
    exact bump_singleton fid s
  have hup := upsertEntry_eq db now { e0 with familyID := fid } _ _ hbump
  simp only [applyOp, hup]
  split
  · rename_i hany
    obtain ⟨r0, hr0, hid⟩ := List.any_eq_true.mp hany
    refine ⟨_, List.mem_map_of_mem _ hr0, ?_⟩
    have hid' : r0.id = e0.id := eq_of_beq hid
    rw [if_pos hid']
    exact ⟨hid', rfl⟩
  · exact ⟨_, List.mem_append_right _ (List.mem_singleton_self _), rfl, rfl⟩

theorem del_row_exists (fid : String) (db : DbState) (s : Int)
    (h : famOK fid db s) (now : Int) (id : String)
    (hex : ∃ r ∈ db.entries, r.id = id) :
    ∃ r ∈ (applyOp fid db (MutOp.del now id)).entries,
      r.id = id ∧ r.deleted = true ∧ r.seq = s + 1 := by
  obtain ⟨hf, _, hfam⟩ := h
  have hbump : bumpFamilySeq db.families fid = some ([{ id := fid, seq := s + 1 }], s + 1) := by
    rw [hf]
    exact bump_singleton fid s
  have hdel := deleteEntry_eq db now fid id _ _ hbump
  simp only [applyOp, hdel]
  obtain ⟨r0, hr0, hid⟩ := hex
  refine ⟨_, List.mem_map_of_mem _ hr0, ?_⟩
  rw [if_pos ⟨hid, hfam r0 hr0⟩]
  exact ⟨hid, rfl, rfl⟩

/-- The entry whose delete is replayed in the C2 counterexample trace. -/
def ghostTraceEntry : Entry :=
  { id := "a", familyID := "x", ts := 0, type := "t", value := "v",
    deleted := false, updatedAt := 0, seq := 0 }

/-- C2 counterexample: after an upsert followed by a `MarkDeleted` of an id
the family does not hold, the family counter is 2 while the only entry has
seq 1, so `family.seq` exceeds the maximum entry seq instead of equalling
it. -/
theorem family_seq_gap_counterexample :
    (applyOps "f" (dbInit "f")
        [MutOp.upsert 1 ghostTraceEntry, MutOp.del 2 "ghost"]).entries.map Entry.seq = [1] ∧
    familySeqD (applyOps "f" (dbInit "f")
        [MutOp.upsert 1 ghostTraceEntry, MutOp.del 2 "ghost"]) "f" = 2 :=
  ⟨by decide, by decide⟩

/-- C2 amended: over any single-family mutation history started from a fresh
family, the family's seq always dominates every entry's seq; after appending
an upsert the mutated row carries exactly the newly assigned seq, which
equals the family seq (hence the maximum); likewise after a delete of an id
the family holds.  A `MarkDeleted` of an unknown id, however, leaves the
family seq strictly above every entry seq (see the counterexample). -/
theorem family_seq_dominates (fid : String) (ops : List MutOp) :
    (∀ e ∈ (applyOps fid (dbInit fid) ops).entries,
        e.seq ≤ familySeqD (applyOps fid (dbInit fid) ops) fid) ∧
    (∀ (now : Int) (e0 : Entry),
        ∃ r ∈ (applyOps fid (dbInit fid) (ops ++ [MutOp.upsert now e0])).entries,
          r.id = e0.id ∧
          r.seq = familySeqD (applyOps fid (dbInit fid) (ops ++ [MutOp.upsert now e0])) fid) ∧
    (∀ (now : Int) (id : String),
        (∃ r ∈ (applyOps fid (dbInit fid) ops).entries, r.id = id) →
        ∃ r ∈ (applyOps fid (dbInit fid) (ops ++ [MutOp.del now id])).entries,
          r.id = id ∧ r.deleted = true ∧
          r.seq = familySeqD (applyOps fid (dbInit fid) (ops ++ [MutOp.del now id])) fid) := by
  have hOK : famOK fid (applyOps fid (dbInit fid) ops) (0 + ops.length) :=
    applyOps_famOK fid ops (dbInit fid) 0 (famOK_dbInit fid)
  have happ : ∀ op : MutOp, applyOps fid (dbInit fid) (ops ++ [op]) =
      applyOp fid (applyOps fid (dbInit fid) ops) op := by
    intro op
    unfold applyOps
    rw [List.foldl_append]
    rfl
  refine ⟨?_, ?_, ?_⟩
  · intro e he
    rw [famSeqD_of_famOK hOK]
    exact hOK.2.1 e he
  · intro now e0
    rw [happ]
    have hrow := upsert_row_exists fid _ _ hOK now e0
    have hOK' : famOK fid (applyOp fid (applyOps fid (dbInit fid) ops) (MutOp.upsert now e0))
        (0 + ops.length + 1) := applyOp_famOK fid _ _ _ hOK
    rw [famSeqD_of_famOK hOK']
    exact hrow
  · intro now id hex
    rw [happ]
    have hrow := del_row_exists fid _ _ hOK now id hex
    have hOK' : famOK fid (applyOp fid (applyOps fid (dbInit fid) ops) (MutOp.del now id))
        (0 + ops.length + 1) := applyOp_famOK fid _ _ _ hOK
    rw [famSeqD_of_famOK hOK']
    exact hrow

/-- Witness for C2's amended theorem on a one-upsert history. -/
theorem family_seq_dominates_witness :
    (∀ e ∈ (applyOps "f" (dbInit "f") [MutOp.upsert 1 ghostTraceEntry]).entries,
        e.seq ≤ familySeqD (applyOps "f" (dbInit "f") [MutOp.upsert 1 ghostTraceEntry]) "f") ∧
    (∃ r ∈ (applyOps "f" (dbInit "f")
        ([MutOp.upsert 1 ghostTraceEntry] ++ [MutOp.del 3 "a"])).entries,
      r.id = "a" ∧ r.deleted = true ∧
      r.seq = familySeqD (applyOps "f" (dbInit "f")
        ([MutOp.upsert 1 ghostTraceEntry] ++ [MutOp.del 3 "a"])) "f") :=
  ⟨(family_seq_dominates "f" [MutOp.upsert 1 ghostTraceEntry]).1,
   (family_seq_dominates "f" [MutOp.upsert 1 ghostTraceEntry]).2.2 3 "a"
     ⟨{ ghostTraceEntry with familyID := "f", updatedAt := 1, seq := 1 }, by decide, by decide⟩⟩

/-! ### C3 — ack precedes broadcast; broadcast excludes the submitter -/

/-- C3: when an entry frame is handled successfully (some enqueue happened —
all failure paths enqueue nothing), the first enqueue is the `entry_ack` on
the submitter's own channel, every later enqueue carries the broadcast frame
and goes to a session other than the submitter, and every other session of
the family whose buffer has room receives the broadcast. -/
theorem ack_before_broadcast (st : ServerState) (now : Int) (c : Session) (msg : WSMessage)
    (st' : ServerState) (evs : List Event)
    (h : handleEntryMessage st now c msg = (st', evs)) (hne : evs ≠ []) :
    ∃ ackId ackSeq bf,
      evs.head? = some (c.sid, Frame.entryAck ackId ackSeq) ∧
      (∀ ev ∈ evs.tail, ev.1 ≠ c.sid ∧ ev.2 = bf) ∧
      (∀ s' ∈ st.hub, s'.familyID = c.familyID → s'.sid ≠ c.sid →
        s'.queue.length < sendCap → (s'.sid, bf) ∈ evs.tail) := by
  unfold handleEntryMessage at h
  by_cases h1 : msg.action = "add" ∨ msg.action = "update"
  · rw [if_pos h1] at h
    cases hE : msg.entry with
    | none =>
      simp only [hE] at h
      rw [Prod.mk.injEq] at h
      exact absurd h.2.symm hne
    | some e0 =>
      simp only [hE] at h
      cases hu : upsertEntry st.db now { e0 with familyID := c.familyID } with
      | none =>
        simp only [hu] at h
        rw [Prod.mk.injEq] at h
        exact absurd h.2.symm hne
      | some p =>
        obtain ⟨db', e'⟩ := p
        simp only [hu] at h
        rw [Prod.mk.injEq] at h
        obtain ⟨-, hevs⟩ := h
        subst hevs
        refine ⟨e'.id, e'.seq, Frame.entryUpsert msg.action e', rfl, ?_, ?_⟩
        · intro ev hev
          exact broadcast_event_spec _ _ _ _ ev hev
        · intro s' hs' hfam hsid hroom
          exact broadcast_event_mem _ _ _ _ s'
            (blockingSend_mem st.hub c.sid _ s' hs' hsid) hfam hsid hroom
  · rw [if_neg h1] at h
    by_cases h2 : msg.action = "delete"
    · rw [if_pos h2] at h
      cases hd : deleteEntry st.db now c.familyID msg.id with
      | none =>
        simp only [hd] at h
        rw [Prod.mk.injEq] at h
        exact absurd h.2.symm hne
      | some p =>
        obtain ⟨db', seq⟩ := p
        simp only [hd] at h
        rw [Prod.mk.injEq] at h
        obtain ⟨-, hevs⟩ := h
        subst hevs
        refine ⟨msg.id, seq, Frame.entryDelete msg.id seq, rfl, ?_, ?_⟩
        · intro ev hev
          exact broadcast_event_spec _ _ _ _ ev hev
        · intro s' hs' hfam hsid hroom
          exact broadcast_event_mem _ _ _ _ s'
            (blockingSend_mem st.hub c.sid _ s' hs' hsid) hfam hsid hroom
    · rw [if_neg h2] at h
      rw [Prod.mk.injEq] at h
      exact absurd h.2.symm hne

/-- The submitting session used in the C3 and C7 witnesses. -/
def wsSubmitter : Session := { sid := 0, familyID := "f", label := "a", queue := [] }

/-- A same-family peer session used in the C3 and C7 witnesses. -/
def wsPeer : Session := { sid := 1, familyID := "f", label := "b", queue := [] }

/-- A two-session server state over a fresh family. -/
def wsState : ServerState := { db := dbInit "f", hub := [wsSubmitter, wsPeer] }

/-- A concrete `entry`/`add` frame. -/
def wsAddMsg : WSMessage :=
  { type := "entry", action := "add", entry := some ghostTraceEntry,
    entries := [], id := "", cursor := 0, limit := 0 }

/-- Witness for C3 on a concrete two-session hub. -/
theorem ack_before_broadcast_witness :
    ∃ ackId ackSeq bf,
      ((handleEntryMessage wsState 7 wsSubmitter wsAddMsg).2).head? =
        some (wsSubmitter.sid, Frame.entryAck ackId ackSeq) ∧
      (∀ ev ∈ ((handleEntryMessage wsState 7 wsSubmitter wsAddMsg).2).tail,
        ev.1 ≠ wsSubmitter.sid ∧ ev.2 = bf) ∧
      (∀ s' ∈ wsState.hub, s'.familyID = wsSubmitter.familyID → s'.sid ≠ wsSubmitter.sid →
        s'.queue.length < sendCap →
        (s'.sid, bf) ∈ ((handleEntryMessage wsState 7 wsSubmitter wsAddMsg).2).tail) :=
  ack_before_broadcast wsState 7 wsSubmitter wsAddMsg
    (handleEntryMessage wsState 7 wsSubmitter wsAddMsg).1
    (handleEntryMessage wsState 7 wsSubmitter wsAddMsg).2 rfl (by decide)

/-! ### C4 — cursor scan semantics -/

theorem effLimit_pos (limit : Int) : 0 < effLimit limit := by
  unfold effLimit
  split
  · norm_num
  · omega

/-- In a list sorted by `seqle`, every element of the length-`k` prefix has a
seq no greater than that of any element outside the prefix. -/
theorem take_sorted_le {l : List Entry} (hs : l.Sorted seqle) (k : Nat) :
    ∀ e ∈ l.take k, ∀ e' ∈ l, e' ∉ l.take k → e.seq ≤ e'.seq := by
  induction l generalizing k with
  | nil =>
    intro e he
    rw [List.take_nil] at he
    cases he
  | cons x xs ih =>
    cases k with
    | zero =>
      intro e he
      simp at he
    | succ n =>
      intro e he e' he' hne
      rw [List.take_succ_cons] at he hne
      have hx := List.pairwise_cons.mp hs
      rcases List.mem_cons.mp he with rfl | hetail
      · rcases List.mem_cons.mp he' with rfl | hetail'
        · exact absurd (List.mem_cons_self _ _) hne
        · exact hx.1 e' hetail'
      · rcases List.mem_cons.mp he' with rfl | hetail'
        · exact absurd (List.mem_cons_self _ _) hne
        · exact ih hx.2 n e hetail e' hetail'
            (fun hmem => hne (List.mem_cons_of_mem _ hmem))

/-- C4: for a positive limit, `GetEntriesSinceCursor` returns exactly the
family's entries with `seq > cursor` (tombstones included — membership is
decided by family and seq alone), ordered by seq ascending and truncated to
the first `limit` of them: the result is precisely the length-`limit` prefix
of the seq-ascending ordering of the matching entries, so every returned
entry has a seq no greater than any omitted matching entry; `has_more` holds
iff more matching entries exist than were returned. -/
theorem scan_since_cursor_spec (db : DbState) (fid : String) (cursor limit : Int)
    (hlim : 0 < limit) :
    ((getEntriesSinceCursor db fid cursor limit).1).Sorted seqle ∧
    (∀ e ∈ (getEntriesSinceCursor db fid cursor limit).1,
        e ∈ db.entries ∧ e.familyID = fid ∧ cursor < e.seq) ∧
    ((getEntriesSinceCursor db fid cursor limit).1).length ≤ limit.toNat ∧
    ((getEntriesSinceCursor db fid cursor limit).2 = true ↔
      limit.toNat < (db.entries.filter (entryMatch fid cursor)).length) ∧
    ((db.entries.filter (entryMatch fid cursor)).length ≤ limit.toNat →
      ∀ e ∈ db.entries, e.familyID = fid → cursor < e.seq →
        e ∈ (getEntriesSinceCursor db fid cursor limit).1) ∧
    (getEntriesSinceCursor db fid cursor limit).1 =
      (List.insertionSort seqle (db.entries.filter (entryMatch fid cursor))).take limit.toNat ∧
    (∀ e ∈ (getEntriesSinceCursor db fid cursor limit).1,
      ∀ e' ∈ db.entries, e'.familyID = fid → cursor < e'.seq →
        e' ∉ (getEntriesSinceCursor db fid cursor limit).1 → e.seq ≤ e'.seq) := by
  have heff : effLimit limit = limit := if_neg (not_le.mpr hlim)
  have hsl : (List.insertionSort seqle (db.entries.filter (entryMatch fid cursor))).length =
      (db.entries.filter (entryMatch fid cursor)).length :=
    (List.perm_insertionSort seqle _).length_eq
  have hfl : (scanFetch db fid cursor limit).length =
      min (limit.toNat + 1) (db.entries.filter (entryMatch fid cursor)).length := by
    unfold scanFetch
    rw [List.length_take, hsl, heff]
    congr 1
    omega
  have hpre : (getEntriesSinceCursor db fid cursor limit).1 =
      (List.insertionSort seqle (db.entries.filter (entryMatch fid cursor))).take limit.toNat := by
    unfold getEntriesSinceCursor
    split
    · show ((scanFetch db fid cursor limit).take (effLimit limit).toNat) = _
      unfold scanFetch
      rw [List.take_take, heff]
      congr 1
      omega
    · rename_i hcond
      show scanFetch db fid cursor limit = _
      rw [hfl, heff] at hcond
      unfold scanFetch
      rw [heff]
      have hle : (List.insertionSort seqle
          (db.entries.filter (entryMatch fid cursor))).length ≤ limit.toNat := by
        rw [hsl]
        omega
      rw [List.take_of_length_le hle, List.take_of_length_le (le_trans hle (by omega))]
  refine ⟨scan_sorted db fid cursor limit, scan_mem db fid cursor limit, ?_, ?_, ?_, hpre, ?_⟩
  · have h := scan_len_le db fid cursor limit
    rwa [heff] at h
  · unfold getEntriesSinceCursor
    split
    · rename_i hcond
      rw [hfl, heff] at hcond
      simp only [true_iff]
      omega
    · rename_i hcond
      rw [hfl, heff] at hcond
      simp only [Bool.false_eq_true, false_iff]
      omega
  · intro hn e he hfam hseq
    have hmem : e ∈ db.entries.filter (entryMatch fid cursor) := by
      rw [List.mem_filter]
      refine ⟨he, ?_⟩
      unfold entryMatch
      simp only [Bool.and_eq_true, beq_iff_eq, decide_eq_true_eq]
      exact ⟨hfam, hseq⟩
    rw [hpre, List.take_of_length_le (by rw [hsl]; omega)]
    exact (List.perm_insertionSort seqle _).symm.subset hmem
  · intro e he e' he' hfam' hseq' hne
    have hmem' : e' ∈ List.insertionSort seqle (db.entries.filter (entryMatch fid cursor)) := by
      apply (List.perm_insertionSort seqle _).symm.subset
      rw [List.mem_filter]
      refine ⟨he', ?_⟩
      unfold entryMatch
      simp only [Bool.and_eq_true, beq_iff_eq, decide_eq_true_eq]
      exact ⟨hfam', hseq'⟩
    rw [hpre] at he hne
    exact take_sorted_le (List.sorted_insertionSort seqle _) limit.toNat e he e' hmem' hne

/-- Witness for C4 on a two-entry family with limit 1 (truncation case). -/
theorem scan_since_cursor_spec_witness :
    ((getEntriesSinceCursor (mkDb 2) "f" 0 1).1).Sorted seqle ∧
    (∀ e ∈ (getEntriesSinceCursor (mkDb 2) "f" 0 1).1,
        e ∈ (mkDb 2).entries ∧ e.familyID = "f" ∧ 0 < e.seq) ∧
    ((getEntriesSinceCursor (mkDb 2) "f" 0 1).1).length ≤ (1 : Int).toNat ∧
    ((getEntriesSinceCursor (mkDb 2) "f" 0 1).2 = true ↔
      (1 : Int).toNat < ((mkDb 2).entries.filter (entryMatch "f" 0)).length) ∧
    (((mkDb 2).entries.filter (entryMatch "f" 0)).length ≤ (1 : Int).toNat →
      ∀ e ∈ (mkDb 2).entries, e.familyID = "f" → 0 < e.seq →
        e ∈ (getEntriesSinceCursor (mkDb 2) "f" 0 1).1) ∧
    (getEntriesSinceCursor (mkDb 2) "f" 0 1).1 =
      (List.insertionSort seqle ((mkDb 2).entries.filter (entryMatch "f" 0))).take
        (1 : Int).toNat ∧
    (∀ e ∈ (getEntriesSinceCursor (mkDb 2) "f" 0 1).1,
      ∀ e' ∈ (mkDb 2).entries, e'.familyID = "f" → 0 < e'.seq →
        e' ∉ (getEntriesSinceCursor (mkDb 2) "f" 0 1).1 → e.seq ≤ e'.seq) :=
  scan_since_cursor_spec (mkDb 2) "f" 0 1 (by decide)

/-! ### C5 — sync_response cursor semantics -/

theorem handleSyncMessage_events_nobulk (st : ServerState) (now : Int) (c : Session)
    (msg : WSMessage) (hb : msg.entries = []) :
    (handleSyncMessage st now c msg).2 =
      [(c.sid, Frame.syncResponse
          (getEntriesSinceCursor st.db c.familyID msg.cursor msg.limit).1
          (match (getEntriesSinceCursor st.db c.familyID msg.cursor msg.limit).1.getLast? with
           | none => msg.cursor
           | some e => e.seq)
          (getEntriesSinceCursor st.db c.familyID msg.cursor msg.limit).2)] := by
  unfold handleSyncMessage
  rw [hb]
  rfl

theorem handleSyncMessage_events (st : ServerState) (now : Int) (c : Session)
    (msg : WSMessage) :
    (handleSyncMessage st now c msg).2 =
      (processBulk st now c msg.entries).2 ++
        [(c.sid, Frame.syncResponse
            (getEntriesSinceCursor (processBulk st now c msg.entries).1.db c.familyID
              msg.cursor msg.limit).1
            (match (getEntriesSinceCursor (processBulk st now c msg.entries).1.db c.familyID
                msg.cursor msg.limit).1.getLast? with
             | none => msg.cursor
             | some e => e.seq)
            (getEntriesSinceCursor (processBulk st now c msg.entries).1.db c.familyID
              msg.cursor msg.limit).2)] := rfl

theorem scan_cursor_core (db : DbState) (fid : String) (cursor limit : Int) :
    ((getEntriesSinceCursor db fid cursor limit).1 = [] →
      (match (getEntriesSinceCursor db fid cursor limit).1.getLast? with
       | none => cursor | some e => e.seq) = cursor) ∧
    (∀ e ∈ (getEntriesSinceCursor db fid cursor limit).1,
      e.seq ≤ match (getEntriesSinceCursor db fid cursor limit).1.getLast? with
              | none => cursor | some e => e.seq) ∧
    ((getEntriesSinceCursor db fid cursor limit).1 ≠ [] →
      ∃ e ∈ (getEntriesSinceCursor db fid cursor limit).1,
        e.seq = match (getEntriesSinceCursor db fid cursor limit).1.getLast? with
                | none => cursor | some e => e.seq) := by
  refine ⟨?_, ?_, ?_⟩
  · intro hres
    rw [hres]
    rfl
  · intro e he
    cases hL : (getEntriesSinceCursor db fid cursor limit).1.getLast? with
    | none =>
      have h0 : (getEntriesSinceCursor db fid cursor limit).1 = [] := by
        simpa using hL
      rw [h0] at he
      cases he
    | some a =>
      show e.seq ≤ a.seq
      exact sorted_le_getLast (scan_sorted db fid cursor limit) hL e he
  · intro hres
    cases hL : (getEntriesSinceCursor db fid cursor limit).1.getLast? with
    | none =>
      exact absurd (by simpa using hL) hres
    | some a =>
      exact ⟨a, mem_of_getLast?_eq hL, rfl⟩

/-- C5: every `sync_response` carries a cursor equal to the maximum seq among
its returned entries, or the request's cursor when none are returned; and a
bulk-free request whose cursor equals the family's current seq (which
dominates every entry seq) yields an empty batch, `has_more = false`, and an
unchanged cursor. -/
theorem sync_response_cursor (st : ServerState) (now : Int) (c : Session) (msg : WSMessage) :
    (∃ res nc hm,
      ((handleSyncMessage st now c msg).2).getLast? =
        some (c.sid, Frame.syncResponse res nc hm) ∧
      (res = [] → nc = msg.cursor) ∧
      (∀ e ∈ res, e.seq ≤ nc) ∧
      (res ≠ [] → ∃ e ∈ res, e.seq = nc)) ∧
    (msg.entries = [] →
     familySeqD st.db c.familyID = msg.cursor →
     (∀ e ∈ st.db.entries, e.familyID = c.familyID → e.seq ≤ msg.cursor) →
     (handleSyncMessage st now c msg).2 =
       [(c.sid, Frame.syncResponse [] msg.cursor false)]) := by
  constructor
  · obtain ⟨h1, h2, h3⟩ := scan_cursor_core (processBulk st now c msg.entries).1.db
      c.familyID msg.cursor msg.limit
    exact ⟨_, _, _, by rw [handleSyncMessage_events]; exact List.getLast?_concat _,
      h1, h2, h3⟩
  · intro hb hseq hbound
    have hev := handleSyncMessage_events_nobulk st now c msg hb
    have hfil : st.db.entries.filter (entryMatch c.familyID msg.cursor) = [] := by
      rw [List.filter_eq_nil_iff]
      intro a ha
      unfold entryMatch
      simp only [Bool.and_eq_true, beq_iff_eq, decide_eq_true_eq, not_and]
      intro hfam
      exact not_lt.mpr (hbound a ha hfam)
    have hsf : scanFetch st.db c.familyID msg.cursor msg.limit = [] := by
      unfold scanFetch
      rw [hfil]
      simp
    have hscan : getEntriesSinceCursor st.db c.familyID msg.cursor msg.limit = ([], false) := by
      unfold getEntriesSinceCursor
      rw [hsf]
      rw [if_neg (by have := effLimit_pos msg.limit; simp only [List.length_nil]; omega)]
    rw [hev, hscan]
    rfl

/-- Witness for C5 on a fresh family whose seq equals the request cursor 0. -/
theorem sync_response_cursor_witness :
    (∃ res nc hm,
      ((handleSyncMessage wsState 3 wsPeer
          { type := "sync_request", action := "", entry := none, entries := [],
            id := "", cursor := 0, limit := 0 }).2).getLast? =
        some (wsPeer.sid, Frame.syncResponse res nc hm) ∧
      (res = [] → nc = 0) ∧ (∀ e ∈ res, e.seq ≤ nc) ∧
      (res ≠ [] → ∃ e ∈ res, e.seq = nc)) ∧
    (([] : List Entry) = [] →
     familySeqD wsState.db wsPeer.familyID = 0 →
     (∀ e ∈ wsState.db.entries, e.familyID = wsPeer.familyID → e.seq ≤ 0) →
     (handleSyncMessage wsState 3 wsPeer
         { type := "sync_request", action := "", entry := none, entries := [],
           id := "", cursor := 0, limit := 0 }).2 =
       [(wsPeer.sid, Frame.syncResponse [] 0 false)]) :=
  sync_response_cursor wsState 3 wsPeer
    { type := "sync_request", action := "", entry := none, entries := [],
      id := "", cursor := 0, limit := 0 }

/-! ### C7 — bulk-pushed deleted entries are acked and broadcast as deletes -/

theorem bumpFamilySeq_eq (fams : List Family) (fid : String) (s : Int)
    (hf : fams.find? (fun f => f.id == fid) = some { id := fid, seq := s }) :
    bumpFamilySeq fams fid =
      some (fams.map (fun g => if g.id = fid then { g with seq := s + 1 } else g), s + 1) := by
  unfold bumpFamilySeq
  rw [hf]

/-- A deleted entry pushed through the legacy bulk path in the C7
counterexample. -/
def wsBulkDelMsg : WSMessage :=
  { type := "sync", action := "", entry := none,
    entries := [{ id := "x", familyID := "zzz", ts := 0, type := "t", value := "",
                  deleted := true, updatedAt := 0, seq := 0 }],
    id := "", cursor := 1, limit := 0 }

/-- C7 counterexample: a bulk-pushed entry with `deleted=true` IS acked — the
submitter (sid 0) receives `entry_ack("x", 1)` before the peer's delete
broadcast, contradicting the claim that no ack is emitted for such entries. -/
theorem bulk_push_del_ack_counterexample :
    (handleSyncMessage wsState 0 wsSubmitter wsBulkDelMsg).2 =
      [(0, Frame.entryAck "x" 1), (1, Frame.entryDelete "x" 1),
       (0, Frame.syncResponse [] 1 false)] := by
  decide

/-- Bumping a family's seq leaves it findable at the incremented value. -/
theorem find?_bump (fams : List Family) (fid : String) (s : Int)
    (hf : fams.find? (fun f => f.id == fid) = some { id := fid, seq := s }) :
    (fams.map (fun g => if g.id = fid then { g with seq := s + 1 } else g)).find?
      (fun f => f.id == fid) = some { id := fid, seq := s + 1 } := by
  induction fams with
  | nil => cases hf
  | cons x xs ih =>
    rw [List.map_cons]
    by_cases hx : x.id = fid
    · have hbeq : (x.id == fid) = true := beq_iff_eq.mpr hx
      simp only [List.find?_cons, hbeq] at hf
      have hxeq : x = { id := fid, seq := s } := Option.some.inj hf
      subst hxeq
      simp [List.find?_cons]
    · have hbeq : (x.id == fid) = false := by
        simp [hx]
      simp only [List.find?_cons, hbeq] at hf
      rw [if_neg hx]
      simp only [List.find?_cons, hbeq]
      exact ih hf

/-- A broadcast grows each session's queue by at most one frame and keeps its
identity and family. -/
theorem broadcast_grow (hub : HubState) (fid : String) (f : Frame) (excl : Nat) :
    ∀ s' ∈ hub, ∃ s'' ∈ (broadcast hub fid f excl).1,
      s''.sid = s'.sid ∧ s''.familyID = s'.familyID ∧
      s''.queue.length ≤ s'.queue.length + 1 := by
  induction hub with
  | nil => intro s' h; cases h
  | cons t rest ih =>
    intro s' hs'
    unfold broadcast
    rcases List.mem_cons.mp hs' with rfl | hmem
    · by_cases h1 : s'.familyID = fid ∧ s'.sid ≠ excl
      · rw [if_pos h1]
        by_cases h2 : s'.queue.length < sendCap
        · rw [if_pos h2]
          exact ⟨_, List.mem_cons_self _ _, rfl, rfl, by simp⟩
        · rw [if_neg h2]
          exact ⟨s', List.mem_cons_self _ _, rfl, rfl, by omega⟩
      · rw [if_neg h1]
        exact ⟨s', List.mem_cons_self _ _, rfl, rfl, by omega⟩
    · obtain ⟨s'', hmem'', hsid'', hfam'', hlen''⟩ := ih s' hmem
      by_cases h1 : t.familyID = fid ∧ t.sid ≠ excl
      · rw [if_pos h1]
        by_cases h2 : t.queue.length < sendCap
        · rw [if_pos h2]
          exact ⟨s'', List.mem_cons_of_mem _ hmem'', hsid'', hfam'', hlen''⟩
        · rw [if_neg h2]
          exact ⟨s'', List.mem_cons_of_mem _ hmem'', hsid'', hfam'', hlen''⟩
      · rw [if_neg h1]
        exact ⟨s'', List.mem_cons_of_mem _ hmem'', hsid'', hfam'', hlen''⟩

/-- One step of the bulk-push loop, for a successful upsert whose broadcast
result is `(hub2, bevs)`. -/
theorem processBulk_cons_eq (st : ServerState) (now : Int) (c : Session) (x : Entry)
    (rest : List Entry) (db' : DbState) (e' : Entry) (hub2 : HubState) (bevs : List Event)
    (hu : upsertEntry st.db now { x with familyID := c.familyID } = some (db', e'))
    (hbr : broadcast (blockingSend st.hub c.sid (Frame.entryAck e'.id e'.seq)) c.familyID
        (if e'.deleted then Frame.entryDelete e'.id e'.seq
         else Frame.entryUpsert "add" e') c.sid = (hub2, bevs)) :
    processBulk st now c (x :: rest) =
      ((processBulk { db := db', hub := hub2 } now c rest).1,
       ((c.sid, Frame.entryAck e'.id e'.seq) :: bevs) ++
         (processBulk { db := db', hub := hub2 } now c rest).2) := by
  simp only [processBulk, hu, hbr]

/-- Over a whole bulk batch, every pushed entry is acked to the submitter,
and each deleted one is broadcast as a delete frame to every other
same-family session with room for the batch's broadcasts. -/
theorem processBulk_acks (now : Int) (c : Session) :
    ∀ (l : List Entry) (st : ServerState) (s : Int),
      st.db.families.find? (fun f => f.id == c.familyID) =
        some { id := c.familyID, seq := s } →
      ∀ e ∈ l, ∃ q,
        (c.sid, Frame.entryAck e.id q) ∈ (processBulk st now c l).2 ∧
        (e.deleted = true →
          ∀ s' ∈ st.hub, s'.familyID = c.familyID → s'.sid ≠ c.sid →
            s'.queue.length + l.length ≤ sendCap →
            (s'.sid, Frame.entryDelete e.id q) ∈ (processBulk st now c l).2) := by
  intro l
  induction l with
  | nil =>
    intro st s _ e he
    cases he
  | cons x rest ih =>
    intro st s hf e he
    have hbump : bumpFamilySeq st.db.families ({ x with familyID := c.familyID } : Entry).familyID =
        some (st.db.families.map
          (fun g => if g.id = c.familyID then { g with seq := s + 1 } else g), s + 1) := by
      show bumpFamilySeq st.db.families c.familyID = _
      exact bumpFamilySeq_eq st.db.families c.familyID s hf
    cases hu : upsertEntry st.db now { x with familyID := c.familyID } with
    | none =>
      exfalso
      unfold upsertEntry at hu
      rw [hbump] at hu
      cases hu
    | some p =>
      obtain ⟨db', e'⟩ := p
      have hlit := upsertEntry_eq st.db now { x with familyID := c.familyID } _ _ hbump
      rw [hu] at hlit
      have hpair := Option.some.inj hlit
      rw [Prod.mk.injEq] at hpair
      obtain ⟨hdbeq, heeq⟩ := hpair
      have heid : e'.id = x.id := by rw [heeq]
      have heseq : e'.seq = s + 1 := by rw [heeq]
      have hedel : e'.deleted = x.deleted := by rw [heeq]
      have hfind : db'.families.find? (fun f => f.id == c.familyID) =
          some { id := c.familyID, seq := s + 1 } := by
        rw [hdbeq]
        exact find?_bump st.db.families c.familyID s hf
      rcases hbr : broadcast (blockingSend st.hub c.sid (Frame.entryAck e'.id e'.seq)) c.familyID
          (if e'.deleted then Frame.entryDelete e'.id e'.seq
           else Frame.entryUpsert "add" e') c.sid with ⟨hub2, bevs⟩
      rw [processBulk_cons_eq st now c x rest db' e' hub2 bevs hu hbr]
      rcases List.mem_cons.mp he with rfl | hrest
      · refine ⟨s + 1, ?_, ?_⟩
        · apply List.mem_append_left
          rw [← heid, ← heseq]
          exact List.mem_cons_self _ _
        · intro hdel s' hs' hfam hsid hroom
          apply List.mem_append_left
          apply List.mem_cons_of_mem
          have hroom' : s'.queue.length < sendCap := by
            simp only [List.length_cons] at hroom
            omega
          have hbff : (if e'.deleted then Frame.entryDelete e'.id e'.seq
              else Frame.entryUpsert "add" e') = Frame.entryDelete e.id (s + 1) := by
            rw [heid, heseq, hedel, if_pos hdel]
          have hmemb := broadcast_event_mem
            (blockingSend st.hub c.sid (Frame.entryAck e'.id e'.seq)) c.familyID
            (if e'.deleted then Frame.entryDelete e'.id e'.seq
             else Frame.entryUpsert "add" e') c.sid s'
            (blockingSend_mem st.hub c.sid _ s' hs' hsid) hfam hsid hroom'
          rw [hbr, hbff] at hmemb
          exact hmemb
      · obtain ⟨q, hack, hdelp⟩ := ih { db := db', hub := hub2 } (s + 1) hfind e hrest
        refine ⟨q, List.mem_append_right _ hack, ?_⟩
        intro hdel s' hs' hfam hsid hroom
        apply List.mem_append_right
        have hs1 : s' ∈ blockingSend st.hub c.sid (Frame.entryAck e'.id e'.seq) :=
          blockingSend_mem st.hub c.sid _ s' hs' hsid
        obtain ⟨s'', hmem'', hsid'', hfam'', hlen''⟩ :=
          broadcast_grow (blockingSend st.hub c.sid (Frame.entryAck e'.id e'.seq)) c.familyID
            (if e'.deleted then Frame.entryDelete e'.id e'.seq
             else Frame.entryUpsert "add" e') c.sid s' hs1
        rw [hbr] at hmem''
        have hres := hdelp hdel s'' hmem'' (hfam''.trans hfam)
          (by rw [hsid'']; exact hsid)
          (by simp only [List.length_cons] at hroom; omega)
        rw [hsid''] at hres
        exact hres

/-- C7 amended: each entry of a bulk batch is treated like an add and acked
to the submitter — including entries with `deleted=true`, which are
additionally broadcast to the family's other sessions as `delete` frames
(enqueued for every session with buffer room for the batch's broadcasts). -/
theorem bulk_push_acks (st : ServerState) (now : Int) (c : Session) (msg : WSMessage)
    (s : Int)
    (hf : st.db.families.find? (fun f => f.id == c.familyID) =
      some { id := c.familyID, seq := s }) :
    ∀ e ∈ msg.entries, ∃ q,
      (c.sid, Frame.entryAck e.id q) ∈ (handleSyncMessage st now c msg).2 ∧
      (e.deleted = true →
        ∀ s' ∈ st.hub, s'.familyID = c.familyID → s'.sid ≠ c.sid →
          s'.queue.length + msg.entries.length ≤ sendCap →
          (s'.sid, Frame.entryDelete e.id q) ∈ (handleSyncMessage st now c msg).2) := by
  intro e he
  obtain ⟨q, hack, hdelp⟩ := processBulk_acks now c msg.entries st s hf e he
  refine ⟨q, ?_, ?_⟩
  · rw [handleSyncMessage_events]
    exact List.mem_append_left _ hack
  · intro hdel s' hs' hfam hsid hroom
    rw [handleSyncMessage_events]
    exact List.mem_append_left _ (hdelp hdel s' hs' hfam hsid hroom)

/-- A same-family peer whose outbound buffer is full (256 queued frames). -/
def wsFullPeer : Session :=
  { sid := 1, familyID := "f", label := "b", queue := List.replicate sendCap Frame.pong }

/-- A two-session state whose peer has a full outbound buffer. -/
def wsFullState : ServerState := { db := dbInit "f", hub := [wsSubmitter, wsFullPeer] }

set_option maxRecDepth 4096 in
/-- C3 counterexample: when the peer's outbound buffer is full, the try-send
in `Hub.Broadcast` drops the frame for it — the handler's only enqueue is the
submitter's ack, so the broadcast is NOT delivered to every other session of
the family. -/
theorem broadcast_drop_counterexample :
    (handleEntryMessage wsFullState 7 wsSubmitter wsAddMsg).2 =
      [(wsSubmitter.sid, Frame.entryAck "a" 1)] ∧
    wsFullPeer ∈ wsFullState.hub ∧
    wsFullPeer.familyID = wsSubmitter.familyID ∧
    wsFullPeer.sid ≠ wsSubmitter.sid :=
  ⟨by decide, by decide, by decide, by decide⟩

/-- A two-entry bulk batch whose second entry is a delete, for the C7
witness. -/
def wsBulkMsg2 : WSMessage :=
  { type := "sync", action := "", entry := none,
    entries := [{ id := "y", familyID := "q", ts := 0, type := "t", value := "",
                  deleted := false, updatedAt := 0, seq := 0 },
                { id := "x", familyID := "zzz", ts := 0, type := "t", value := "",
                  deleted := true, updatedAt := 0, seq := 0 }],
    id := "", cursor := 2, limit := 0 }

/-- Witness for C7's amended theorem: the deleted second entry of a
two-entry batch is acked. -/
theorem bulk_push_acks_witness :
    ∃ q, (wsSubmitter.sid, Frame.entryAck "x" q) ∈
        (handleSyncMessage wsState 0 wsSubmitter wsBulkMsg2).2 ∧
      ((true : Bool) = true →
        ∀ s' ∈ wsState.hub, s'.familyID = wsSubmitter.familyID →
          s'.sid ≠ wsSubmitter.sid →
          s'.queue.length + wsBulkMsg2.entries.length ≤ sendCap →
          (s'.sid, Frame.entryDelete "x" q) ∈
            (handleSyncMessage wsState 0 wsSubmitter wsBulkMsg2).2) :=
  bulk_push_acks wsState 0 wsSubmitter wsBulkMsg2 0 (by decide)
    { id := "x", familyID := "zzz", ts := 0, type := "t", value := "",
      deleted := true, updatedAt := 0, seq := 0 } (by decide)

end Babytrack
